import Mathlib

/-!
Verification of the conversation/task engine of the `cx` repository.

The `qx` tool (src/qx.ts) persists a conversation as an active file plus a
directory of archived history files.  We embed the storage layer shallowly:
JavaScript objects become Lean structures, the file system becomes an
explicit state (content of the active file, entries of the history
directory), and each storage function of qx.ts becomes a Lean function on
that state.  File writes are additionally mirrored as explicit traces of
file-system operations so that statements about write discipline
(temporary file plus rename versus direct write) can be made.

JSON serialization is modelled by the `FileData` type: a file either holds
a well-formed record (`valid h`, and `JSON.parse` of `JSON.stringify h`
yields `h` again for these string-field records) or is `malformed`
(`JSON.parse` throws).  JavaScript strings are modelled through their
character sequences (`String.data`); `startsWith`, `endsWith`, `slice` and
first-occurrence `replace` are defined over those sequences.

The task scorer and the recurrence engine of the `tx` tool are described
by the repository only in documentation; their definitions below are
modelled from the specification text and say so in their doc comments.
-/

namespace Qx

/-- Message roles, from the `StoredMessage` interface of qx.ts. -/
inductive Role where
  | system
  | human
  | assistant
deriving DecidableEq

/-- One stored chat message (`StoredMessage` in qx.ts). -/
structure StoredMessage where
  role : Role
  content : String
  timestamp : String
deriving DecidableEq

/-- A conversation record (`MessageHistory` in qx.ts). -/
structure MessageHistory where
  id : String
  created : String
  updated : String
  messages : List StoredMessage
deriving DecidableEq

/-- A listing entry (`HistoryRecord` in qx.ts). -/
structure HistoryRecord where
  id : String
  created : String
  updated : String
  preview : String
  messageCount : Nat
deriving DecidableEq

/-- Content of one on-disk file: either a record that parses, or a
malformed file on which `JSON.parse` throws.  For the record types of
qx.ts (strings and lists of string-field records), `JSON.parse` after
`JSON.stringify` restores the value exactly, so serialization of `h` is
modelled as `valid h`. -/
inductive FileData where
  | valid (h : MessageHistory)
  | malformed
deriving DecidableEq

/-- `JSON.parse` of a file's content, as far as qx.ts consumes it. -/
def parseFile : FileData → Option MessageHistory
  | .valid h => some h
  | .malformed => none

/-- `JSON.stringify` of a record. -/
def serialize (h : MessageHistory) : FileData := .valid h

/-- The on-disk state qx.ts operates on: the content of
`active_message.json` (`none` when the file is absent) and the entries of
the `history` directory as (filename, content) pairs. -/
structure FsState where
  active : Option FileData
  history : List (String × FileData)
deriving DecidableEq

/-- Path of the active conversation file, relative to the config dir. -/
def activeMessagePath : String := "active_message.json"

/-- Path of a history file with the given file name. -/
def historyPathOf (fileName : String) : String := "history/" ++ fileName

/-- A file-system side effect performed by a storage operation.  qx.ts
only ever writes, unlinks, or (hypothetically) renames files; directory
creation by `ensureDirectories` affects no file content and is elided. -/
inductive FsOp where
  | write (path : String) (content : FileData)
  | unlink (path : String)
  | rename (src : String) (dst : String)
deriving DecidableEq

/-- JavaScript `s.startsWith(pat)`: literal, case-sensitive test over the
character sequence. -/
def jsStartsWith (s pat : String) : Bool := pat.data.isPrefixOf s.data

/-- JavaScript `s.endsWith(pat)`. -/
def jsEndsWith (s pat : String) : Bool := pat.data.isSuffixOf s.data

/-- Remove the first occurrence of `pat` from a character list, as
JavaScript `String.prototype.replace` with a string pattern and empty
replacement does. -/
def removeFirstList (pat : List Char) : List Char → List Char
  | [] => []
  | c :: rest =>
    if pat.isPrefixOf (c :: rest) then (c :: rest).drop pat.length
    else c :: removeFirstList pat rest

/-- JavaScript `f.replace(".json", "")` (first occurrence only), used by
`restoreHistory` to turn a matched file name back into an identifier. -/
def stripJson (f : String) : String := ⟨removeFirstList ".json".data f.data⟩

/-- JavaScript `s.slice(0, n)`. -/
def jsSlice (n : Nat) (s : String) : String := ⟨s.data.take n⟩

/-- JavaScript `s.length`. -/
def jsLength (s : String) : Nat := s.data.length

/-- `loadActiveMessage` of qx.ts: `null` when the file is absent, the
parsed record when it parses, `null` when `JSON.parse` throws (the
function catches and returns `null`, it never throws). -/
def loadActiveMessage (s : FsState) : Option MessageHistory :=
  match s.active with
  | none => none
  | some c => parseFile c

/-- State effect of `saveActiveMessage` of qx.ts: the record's `updated`
field is overwritten with the current time, then the result is written
directly to the active path. -/
def saveActiveMessageFs (now : String) (h : MessageHistory) (s : FsState) : FsState :=
  { s with active := some (serialize { h with updated := now }) }

/-- File operations performed by `saveActiveMessage`. -/
def saveActiveMessageTrace (now : String) (h : MessageHistory) : List FsOp :=
  [.write activeMessagePath (serialize { h with updated := now })]

/-- Effect of `writeFileSync` on a directory listing: create the entry or
overwrite the entry of the same name. -/
def historyInsert (f : String) (c : FileData) :
    List (String × FileData) → List (String × FileData)
  | [] => [(f, c)]
  | (g, d) :: rest => if g = f then (f, c) :: rest else (g, d) :: historyInsert f c rest

/-- File name under which a record is archived (`${history.id}.json`). -/
def historyFileName (h : MessageHistory) : String := h.id ++ ".json"

/-- State effect of `archiveToHistory` of qx.ts. -/
def archiveToHistoryFs (h : MessageHistory) (s : FsState) : FsState :=
  { s with history := historyInsert (historyFileName h) (serialize h) s.history }

/-- File operations performed by `archiveToHistory`. -/
def archiveToHistoryTrace (h : MessageHistory) : List FsOp :=
  [.write (historyPathOf (historyFileName h)) (serialize h)]

/-- State effect and return value of `clearActiveMessage` of qx.ts: the
current conversation is archived when it loads and is non-empty, then the
active file is removed when present. -/
def clearActiveMessageFs (s : FsState) : Bool × FsState :=
  let s₁ := match loadActiveMessage s with
            | some cur => if cur.messages.length > 0 then archiveToHistoryFs cur s else s
            | none => s
  match s.active with
  | some _ => (true, { s₁ with active := none })
  | none => (false, s₁)

/-- File operations performed by `clearActiveMessage`. -/
def clearActiveMessageTrace (s : FsState) : List FsOp :=
  (match loadActiveMessage s with
   | some cur => if cur.messages.length > 0 then archiveToHistoryTrace cur else []
   | none => []) ++
  (match s.active with
   | some _ => [.unlink activeMessagePath]
   | none => [])

/-- Preview string computed by `listHistory` of qx.ts: the first
human-role message, sliced to 60 characters with an ellipsis when longer,
or a placeholder when no human message exists. -/
def previewOf (msgs : List StoredMessage) : String :=
  match msgs.find? (fun m => m.role == Role.human) with
  | some m => jsSlice 60 m.content ++ (if 60 < jsLength m.content then "..." else "")
  | none => "(empty conversation)"

/-- The `HistoryRecord` that `listHistory` builds from one parsed file. -/
def historyRecordOf (h : MessageHistory) : HistoryRecord :=
  { id := h.id, created := h.created, updated := h.updated,
    preview := previewOf h.messages, messageCount := h.messages.length }

/-- `listHistory` before sorting: one record per `.json` file that
parses; files that fail to parse are skipped by the catch block. -/
def listHistoryRaw (s : FsState) : List HistoryRecord :=
  s.history.filterMap fun e =>
    if jsEndsWith e.1 ".json" then (parseFile e.2).map historyRecordOf else none

/-- The sort comparator of `listHistory`, parameterized by the value
`new Date(x).getTime()` assigns to a timestamp string: `a` may come
before `b` when `b`'s time does not exceed `a`'s (descending). -/
def recordLe (getTime : String → Int) (a b : HistoryRecord) : Bool :=
  decide (getTime b.updated ≤ getTime a.updated)

/-- `listHistory` of qx.ts: records of the parseable `.json` files,
sorted by updated time descending (JavaScript `Array.prototype.sort` is
stable; a stable merge sort models it). -/
def listHistory (getTime : String → Int) (s : FsState) : List HistoryRecord :=
  (listHistoryRaw s).mergeSort (recordLe getTime)

/-- The `RestoreResult` union of qx.ts (the field is named `matches`
there; `matches` is reserved in Lean). -/
inductive RestoreResult where
  | success
  | not_found
  | ambiguous (matchIds : List String)
deriving DecidableEq

/-- The history entries whose file name ends in `.json` and starts with
the candidate prefix — the `files` list computed by `restoreHistory`. -/
def matchingEntries (guid : String) (s : FsState) : List (String × FileData) :=
  s.history.filter fun e => jsEndsWith e.1 ".json" && jsStartsWith e.1 guid

/-- `restoreHistory` of qx.ts.  Zero matches yield `not_found`, two or
more yield `ambiguous` with the matched file names stripped of their
first `".json"` occurrence; a single match is read and parsed
(`JSON.parse` throws on a malformed file, modelled as `.error`), the
current non-empty conversation is archived, and the matched record is
saved as the active conversation (its `updated` field set to now). -/
def restoreHistoryOp (now guid : String) (s : FsState) :
    Except Unit (RestoreResult × FsState) :=
  match matchingEntries guid s with
  | [] => .ok (.not_found, s)
  | [e] =>
    match parseFile e.2 with
    | none => .error ()
    | some target =>
      let s₁ := match loadActiveMessage s with
                | some cur => if cur.messages.length > 0 then archiveToHistoryFs cur s else s
                | none => s
      .ok (.success, saveActiveMessageFs now target s₁)
  | e₁ :: e₂ :: rest =>
    .ok (.ambiguous ((e₁ :: e₂ :: rest).map fun e => stripJson e.1), s)

/-- Resolver as the specification words it (§4.1): a literal,
case-sensitive prefix test over the canonical string form of each
identifier, classified as none / single / ambiguous. -/
def specResolveById (guid : String) (ids : List String) : RestoreResult :=
  match ids.filter (fun id => jsStartsWith id guid) with
  | [] => .not_found
  | [_] => .success
  | ms => .ambiguous ms

/-- Resolver classification actually implemented by `restoreHistory`: the
prefix test runs over the stored file names (identifier followed by
`".json"`), and ambiguous matches are reported with the first `".json"`
occurrence stripped. -/
def specResolveByFileName (guid : String) (files : List String) : RestoreResult :=
  match files.filter (fun f => jsEndsWith f ".json" && jsStartsWith f guid) with
  | [] => .not_found
  | [_] => .success
  | ms => .ambiguous (ms.map stripJson)

/-- Preview as claim C10 words it: the first human message truncated to
at most 60 characters, with an ellipsis appended only when the content is
longer than 60 characters, else a placeholder. -/
def specPreview (msgs : List StoredMessage) : String :=
  match msgs.find? (fun m => m.role == Role.human) with
  | some m =>
    if 60 < jsLength m.content then jsSlice 60 m.content ++ "..." else m.content
  | none => "(empty conversation)"

/-- Whether a trace ever renames some path onto the given target — the
observable signature of a write-then-atomic-replace update. -/
def renamesOnto (tr : List FsOp) (target : String) : Bool :=
  tr.any fun op => match op with
    | .rename _ dst => dst == target
    | _ => false

end Qx

namespace Tx

/-- Modelled from the spec: a calendar date (year, month, day); the tx
implementation is not under src, only its documentation. -/
structure SDate where
  year : Nat
  month : Nat
  day : Nat
deriving DecidableEq

/-- Modelled from the spec: strict calendar order on dates. -/
def SDate.ltb (a b : SDate) : Bool :=
  decide (a.year < b.year) ||
  (a.year == b.year &&
   (decide (a.month < b.month) ||
    (a.month == b.month && decide (a.day < b.day))))

/-- Modelled from the spec: Gregorian leap-year rule. -/
def isLeap (y : Nat) : Bool :=
  y % 4 == 0 && (!(y % 100 == 0) || y % 400 == 0)

/-- Modelled from the spec: number of days in a month. -/
def daysInMonth (y m : Nat) : Nat :=
  if m = 2 then (if isLeap y then 29 else 28)
  else if m = 4 ∨ m = 6 ∨ m = 9 ∨ m = 11 then 30
  else 31

/-- Modelled from the spec: the next calendar day. -/
def nextDay (d : SDate) : SDate :=
  if d.day < daysInMonth d.year d.month then ⟨d.year, d.month, d.day + 1⟩
  else if d.month < 12 then ⟨d.year, d.month + 1, 1⟩
  else ⟨d.year + 1, 1, 1⟩

/-- Modelled from the spec: advance a date by a number of days. -/
def addDays : Nat → SDate → SDate
  | 0, d => d
  | n + 1, d => addDays n (nextDay d)

/-- Modelled from the spec: the (year, month) following a given month. -/
def nextMonthStart (y m : Nat) : Nat × Nat :=
  if m = 12 then (y + 1, 1) else (y, m + 1)

/-- Modelled from the spec (§4.3): monthly-on-anchor recurrence — same
day-of-month next month, clamped to the month's last day when the anchor
exceeds it. -/
def nextMonthly (anchor : Nat) (d : SDate) : SDate :=
  let ym := nextMonthStart d.year d.month
  ⟨ym.1, ym.2, min anchor (daysInMonth ym.1 ym.2)⟩

/-- Modelled from the spec: day of week of a date (Zeller's congruence,
0 = Saturday shifted so that 0 = Sunday). -/
def dayOfWeek (d : SDate) : Nat :=
  let y := if d.month ≤ 2 then d.year - 1 else d.year
  let m := if d.month ≤ 2 then d.month + 12 else d.month
  (d.day + (13 * (m + 1)) / 5 + y % 100 + (y % 100) / 4 + (y / 100) / 4
    + 5 * (y / 100) + 6) % 7

/-- Modelled from the spec (§4.3): weekly-on-anchor recurrence — the next
date with the anchor weekday strictly after the base date. -/
def nextWeekly (targetWeekday : Nat) (d : SDate) : SDate :=
  let delta := (targetWeekday % 7 + 7 - dayOfWeek d) % 7
  addDays (if delta = 0 then 7 else delta) d

/-- Modelled from the spec: frequency class of a recurrence descriptor. -/
inductive Freq where
  | daily
  | weekly
  | monthly
  | yearly
deriving DecidableEq

/-- Modelled from the spec: the optional anchor of a recurrence
descriptor — a weekday or a day-of-month. -/
inductive Anchor where
  | weekday (w : Nat)
  | dayOfMonth (d : Nat)
deriving DecidableEq

/-- Modelled from the spec (§3): a recurrence descriptor. -/
structure Recurrence where
  freq : Freq
  anchor : Option Anchor
deriving DecidableEq

/-- Modelled from the spec: task status (`open` is reserved in Lean, so
the open status is spelled `opened`). -/
inductive TStatus where
  | opened
  | completed
deriving DecidableEq

/-- Modelled from the spec (§3): a completion record. -/
structure Completion where
  completedAt : String
  duration : Option Nat
  note : String
deriving DecidableEq

/-- Modelled from the spec (§3): a task record — identity, description,
creation timestamp, status, discovered fields, optional deadline,
optional recurrence descriptor, optional completion record, and outgoing
blocking edges. -/
structure Task where
  id : String
  description : String
  created : Nat
  status : TStatus
  fields : List (String × String)
  deadline : Option SDate
  recurrence : Option Recurrence
  completion : Option Completion
  blocks : List String
deriving DecidableEq

/-- Modelled from the spec: the task's discovered `priority` field. -/
def priorityOf (t : Task) : Option String :=
  (t.fields.find? (fun e => e.1 == "priority")).map Prod.snd

/-- Modelled from the spec: whether a task is open. -/
def isOpenTask (t : Task) : Bool := t.status == TStatus.opened

/-- Modelled from the spec (§4.5): the number of still-open tasks this
task blocks. -/
def blocksOpenCount (tasks : List Task) (t : Task) : Nat :=
  (tasks.filter fun u => isOpenTask u && t.blocks.contains u.id).length

/-- Modelled from the spec (§4.4): a task is blocked iff some open task
has an outgoing blocking edge to it. -/
def isBlockedTask (tasks : List Task) (t : Task) : Bool :=
  tasks.any fun u => isOpenTask u && u.blocks.contains t.id

/-- Modelled from the spec: overdue — deadline strictly before today. -/
def overdueB (today : SDate) (t : Task) : Bool :=
  match t.deadline with
  | some d => SDate.ltb d today
  | none => false

/-- Modelled from the spec: due today — deadline equal to today. -/
def dueTodayB (today : SDate) (t : Task) : Bool :=
  match t.deadline with
  | some d => d == today
  | none => false

/-- Modelled from the spec (§4.5): the focus score — the sum of the six
documented contributions (+200 overdue, +100 due today, +100 urgent,
+50 high, +40 per still-open blocked task, −50 when itself blocked). -/
def focusScore (today : SDate) (tasks : List Task) (t : Task) : Int :=
  (if overdueB today t then 200 else 0) +
  (if dueTodayB today t then 100 else 0) +
  (if priorityOf t == some "urgent" then 100 else 0) +
  (if priorityOf t == some "high" then 50 else 0) +
  40 * (blocksOpenCount tasks t : Int) +
  (if isBlockedTask tasks t then -50 else 0)

/-- Modelled from the spec (§4.5): the ranking comparator — score
descending, ties by earliest deadline, then earliest creation time. -/
def taskLe (today : SDate) (tasks : List Task) (a b : Task) : Bool :=
  let sa := focusScore today tasks a
  let sb := focusScore today tasks b
  if sa = sb then
    match a.deadline, b.deadline with
    | some da, some db => if da = db then decide (a.created ≤ b.created) else SDate.ltb da db
    | some _, none => true
    | none, some _ => false
    | none, none => decide (a.created ≤ b.created)
  else decide (sb < sa)

/-- Modelled from the spec (§4.5): the focus ranking of the open tasks,
a pure function of the task set and the current date. -/
def rankTasks (today : SDate) (tasks : List Task) : List Task :=
  (tasks.filter isOpenTask).mergeSort (taskLe today tasks)

/-- Modelled from the spec (§4.3): the next deadline computed from the
frequency class, the anchor, and the base date (prior deadline, or the
completion date when no deadline was set). -/
def nextDeadline (r : Recurrence) (base : SDate) : SDate :=
  match r.freq with
  | .daily => nextDay base
  | .weekly =>
    match r.anchor with
    | some (.weekday w) => nextWeekly w base
    | _ => addDays 7 base
  | .monthly =>
    match r.anchor with
    | some (.dayOfMonth a) => nextMonthly a base
    | _ => nextMonthly base.day base
  | .yearly => ⟨base.year + 1, base.month, min base.day (daysInMonth (base.year + 1) base.month)⟩

/-- Modelled from the spec (§4.3, §9): `nextOccurrence` — on completion
of a task carrying a recurrence descriptor, a brand-new open task with a
fresh identifier, the same description and fields, the deadline replaced
by the computed next deadline, and the completion record cleared. -/
def nextOccurrence (newId : String) (completedOn : SDate) (t : Task) : Option Task :=
  match t.recurrence with
  | none => none
  | some r =>
    let base := t.deadline.getD completedOn
    some { t with id := newId, status := TStatus.opened,
                  deadline := some (nextDeadline r base), completion := none }

end Tx

/-! Helper lemmas shared by the claim theorems. -/

theorem isPrefixOf_append_chars (l₁ l₂ : List Char) : l₁.isPrefixOf (l₁ ++ l₂) = true := by
  induction l₁ with
  | nil => simp [List.isPrefixOf]
  | cons a t ih => simp [List.isPrefixOf, ih]

theorem isSuffixOf_append_chars (l₁ l₂ : List Char) : l₂.isSuffixOf (l₁ ++ l₂) = true := by
  simp [List.isSuffixOf, List.reverse_append, isPrefixOf_append_chars]

theorem string_append_right_cancel {a b c : String} (h : a ++ c = b ++ c) : a = b := by
  have hd := congrArg String.data h
  simp [String.data_append] at hd
  exact String.ext hd

theorem qx_jsStartsWith_append (a b : String) : Qx.jsStartsWith (a ++ b) a = true := by
  unfold Qx.jsStartsWith
  rw [String.data_append]
  exact isPrefixOf_append_chars a.data b.data

theorem qx_jsEndsWith_append (a b : String) : Qx.jsEndsWith (a ++ b) b = true := by
  unfold Qx.jsEndsWith
  rw [String.data_append]
  exact isSuffixOf_append_chars a.data b.data

theorem qx_mem_historyInsert (f : String) (c : Qx.FileData)
    (l : List (String × Qx.FileData)) : (f, c) ∈ Qx.historyInsert f c l := by
  induction l with
  | nil => exact List.mem_singleton.mpr rfl
  | cons e rest ih =>
    unfold Qx.historyInsert
    by_cases h : e.1 = f
    · simp [h]
    · simpa [h] using Or.inr ih

theorem length_filterMap_isSome {α β : Type} (g : α → Option β) (l : List α) :
    (l.filterMap g).length = (l.filter fun x => (g x).isSome).length := by
  induction l with
  | nil => rfl
  | cons a t ih => cases hg : g a <;> simp [List.filterMap_cons, hg, ih]

theorem qx_matchingEntries_map_fst (guid : String) (s : Qx.FsState) :
    (Qx.matchingEntries guid s).map Prod.fst =
      (s.history.map Prod.fst).filter
        (fun f => Qx.jsEndsWith f ".json" && Qx.jsStartsWith f guid) := by
  unfold Qx.matchingEntries
  rw [List.filter_map]
  rfl

theorem tx_sdate_ltb_irrefl (a : Tx.SDate) : Tx.SDate.ltb a a = false := by
  simp [Tx.SDate.ltb]

theorem tx_overdue_not_dueToday (today : Tx.SDate) (t : Tx.Task)
    (h : Tx.overdueB today t = true) : Tx.dueTodayB today t = false := by
  cases hd : t.deadline with
  | none =>
    unfold Tx.dueTodayB
    rw [hd]
  | some d =>
    have h' : Tx.SDate.ltb d today = true := by
      unfold Tx.overdueB at h
      rw [hd] at h
      exact h
    have hne : (d == today) = false := by
      cases hb : (d == today) with
      | false => rfl
      | true =>
        exfalso
        rw [eq_of_beq hb, tx_sdate_ltb_irrefl] at h'
        exact Bool.false_ne_true h'
    unfold Tx.dueTodayB
    rw [hd]
    exact hne

theorem qx_previewOf_eq_specPreview (msgs : List Qx.StoredMessage) :
    Qx.previewOf msgs = Qx.specPreview msgs := by
  unfold Qx.previewOf Qx.specPreview
  cases hf : msgs.find? (fun m => m.role == Qx.Role.human) with
  | none => rfl
  | some m =>
    by_cases hl : 60 < Qx.jsLength m.content
    · simp [hl]
    · have htake : Qx.jsSlice 60 m.content = m.content := by
        unfold Qx.jsSlice
        rw [List.take_of_length_le (Nat.le_of_not_lt hl)]
      simp [hl, htake]

/-! Claim C2: write discipline of the persistence layer. -/

/-- Fixture: a concrete conversation record. -/
def exampleRecordC2 : Qx.MessageHistory := ⟨"i", "c", "u", []⟩

/-- Claim C2 fails on the code: at this concrete record, neither
`saveActiveMessage` nor `archiveToHistory` ever renames anything onto its
target — each performs a single direct write to the final path, so no
write goes through a temporary path followed by an atomic replace. -/
theorem claim_C2_counterexample :
    (¬ ∃ src, Qx.FsOp.rename src Qx.activeMessagePath ∈
        Qx.saveActiveMessageTrace "n" exampleRecordC2) ∧
    (¬ ∃ src, Qx.FsOp.rename src (Qx.historyPathOf "i.json") ∈
        Qx.archiveToHistoryTrace exampleRecordC2) ∧
    Qx.FsOp.write Qx.activeMessagePath (Qx.FileData.valid ⟨"i", "c", "n", []⟩) ∈
      Qx.saveActiveMessageTrace "n" exampleRecordC2 := by
  refine ⟨?_, ?_, ?_⟩
  · rintro ⟨src, hmem⟩
    simp [Qx.saveActiveMessageTrace] at hmem
  · rintro ⟨src, hmem⟩
    simp [Qx.archiveToHistoryTrace] at hmem
  · exact List.mem_singleton.mpr rfl

/-- Claim C2 as amended: every persisted write of `saveActiveMessage` and
`archiveToHistory` is a single direct write to the final target path —
no temporary path and no rename is involved, so the atomic-replace
discipline the specification describes is not what the code does. -/
theorem claim_C2_main (now : String) (h : Qx.MessageHistory) :
    Qx.saveActiveMessageTrace now h =
      [Qx.FsOp.write Qx.activeMessagePath (Qx.FileData.valid { h with updated := now })] ∧
    Qx.archiveToHistoryTrace h =
      [Qx.FsOp.write (Qx.historyPathOf (h.id ++ ".json")) (Qx.FileData.valid h)] ∧
    Qx.renamesOnto (Qx.saveActiveMessageTrace now h) Qx.activeMessagePath = false ∧
    Qx.renamesOnto (Qx.archiveToHistoryTrace h) (Qx.historyPathOf (h.id ++ ".json")) = false :=
  ⟨rfl, rfl, rfl, rfl⟩

/-! Claim C6: write-then-read round trip of the active conversation. -/

/-- Fixture: a record whose `updated` field differs from the save time. -/
def exampleRecordC6 : Qx.MessageHistory := ⟨"i", "c", "u", []⟩

/-- Fixture: an empty on-disk state. -/
def emptyFsC6 : Qx.FsState := ⟨none, []⟩

/-- Claim C6 fails on the code: saving this record (at save time "n") and
reading it back does not return the record unchanged, because
`saveActiveMessage` overwrites its `updated` timestamp with the save
time. -/
theorem claim_C6_counterexample :
    Qx.loadActiveMessage (Qx.saveActiveMessageFs "n" exampleRecordC6 emptyFsC6) ≠
      some exampleRecordC6 := by
  decide

/-- Claim C6 as amended: writing a record with `saveActiveMessage` and
reading it back with `loadActiveMessage` yields a value whose identity,
creation timestamp, and full message list (empty lists included) equal
the written record's; the `updated` field is replaced by the save time,
so the value read equals the record exactly as it was written to disk. -/
theorem claim_C6_main (now : String) (h : Qx.MessageHistory) (s : Qx.FsState) :
    Qx.loadActiveMessage (Qx.saveActiveMessageFs now h s) =
      some { id := h.id, created := h.created, updated := now, messages := h.messages } :=
  rfl

/-! Claim C7: the focus scorer (modelled from the spec, §4.5). -/

/-- Claim C7: the focus score of a task is the sum of exactly the six
documented contributions; an overdue urgent task with no blocking or
blocked adjustment scores 300; a non-overdue, non-urgent, non-high task
that blocks two open tasks and is not blocked scores 80; re-running the
scorer on an unchanged task set yields the same ranking (the scorer is a
pure function). -/
theorem claim_C7_main (today : Tx.SDate) (tasks : List Tx.Task) (t : Tx.Task) :
    Tx.focusScore today tasks t =
      (if Tx.overdueB today t then 200 else 0) +
      (if Tx.dueTodayB today t then 100 else 0) +
      (if Tx.priorityOf t == some "urgent" then 100 else 0) +
      (if Tx.priorityOf t == some "high" then 50 else 0) +
      40 * (Tx.blocksOpenCount tasks t : Int) +
      (if Tx.isBlockedTask tasks t then -50 else 0) ∧
    (Tx.overdueB today t = true → Tx.priorityOf t = some "urgent" →
      Tx.blocksOpenCount tasks t = 0 → Tx.isBlockedTask tasks t = false →
      Tx.focusScore today tasks t = 300) ∧
    (Tx.overdueB today t = false → Tx.dueTodayB today t = false →
      Tx.priorityOf t ≠ some "urgent" → Tx.priorityOf t ≠ some "high" →
      Tx.blocksOpenCount tasks t = 2 → Tx.isBlockedTask tasks t = false →
      Tx.focusScore today tasks t = 80) ∧
    Tx.rankTasks today tasks = Tx.rankTasks today tasks := by
  refine ⟨rfl, ?_, ?_, rfl⟩
  · intro hov hpr hbc hbl
    have hdue : Tx.dueTodayB today t = false := tx_overdue_not_dueToday today t hov
    have hu : (Tx.priorityOf t == some "urgent") = true := by
      rw [hpr]; rfl
    have hh : (Tx.priorityOf t == some "high") = false := by
      rw [hpr]; decide
    simp [Tx.focusScore, hov, hdue, hu, hh, hbc, hbl]
  · intro hov hdue hpu hph hbc hbl
    have hu : (Tx.priorityOf t == some "urgent") = false := beq_eq_false_iff_ne.mpr hpu
    have hh : (Tx.priorityOf t == some "high") = false := beq_eq_false_iff_ne.mpr hph
    simp [Tx.focusScore, hov, hdue, hu, hh, hbc, hbl]

/-- Fixture: today's date for the scorer examples. -/
def todayC7 : Tx.SDate := ⟨2025, 12, 10⟩

/-- Fixture: an overdue urgent task that blocks nothing. -/
def taskUrgentC7 : Tx.Task :=
  ⟨"u1", "file report", 0, Tx.TStatus.opened, [("priority", "urgent")],
    some ⟨2025, 12, 1⟩, none, none, []⟩

/-- Fixture: two open tasks and the task that blocks both of them, due
after today and with normal priority. -/
def taskBlockerC7 : Tx.Task :=
  ⟨"b0", "deploy service", 1, Tx.TStatus.opened, [("priority", "normal")],
    some ⟨2025, 12, 20⟩, none, none, ["b1", "b2"]⟩

/-- Fixture: the first blocked task. -/
def taskBlockedOneC7 : Tx.Task :=
  ⟨"b1", "announce release", 2, Tx.TStatus.opened, [], none, none, none, []⟩

/-- Fixture: the second blocked task. -/
def taskBlockedTwoC7 : Tx.Task :=
  ⟨"b2", "update docs", 3, Tx.TStatus.opened, [], none, none, none, []⟩

/-- Fixture: the open task set of the scorer examples. -/
def tasksC7 : List Tx.Task := [taskUrgentC7, taskBlockerC7, taskBlockedOneC7, taskBlockedTwoC7]

/-- Witness for C7: on the concrete task set, the overdue urgent task
scores 300 and the blocker of two open tasks scores 80. -/
theorem claim_C7_witness :
    Tx.focusScore todayC7 tasksC7 taskUrgentC7 = 300 ∧
    Tx.focusScore todayC7 tasksC7 taskBlockerC7 = 80 := by
  constructor
  · exact (claim_C7_main todayC7 tasksC7 taskUrgentC7).2.1
      (by decide) (by decide) (by decide) (by decide)
  · exact (claim_C7_main todayC7 tasksC7 taskBlockerC7).2.2.1
      (by decide) (by decide) (by decide) (by decide) (by decide) (by decide)

/-! Claim C8: recurrence-driven regeneration (modelled from the spec, §4.3). -/

/-- Claim C8: completing a task that carries a recurrence descriptor
produces a brand-new open task — fresh identifier, same description and
fields, completion record cleared — whose deadline is the
deterministically computed next deadline; daily recurrence advances
2025-12-02 to 2025-12-03, and monthly recurrence anchored on day 31
moving into November 2025 (a 30-day month) clamps to November 30. -/
theorem claim_C8_main (newId : String) (completedOn : Tx.SDate) (t : Tx.Task)
    (r : Tx.Recurrence) (hr : t.recurrence = some r) :
    (∃ t', Tx.nextOccurrence newId completedOn t = some t' ∧
      t'.deadline = some (Tx.nextDeadline r (t.deadline.getD completedOn)) ∧
      t'.description = t.description ∧ t'.fields = t.fields ∧
      t'.completion = none ∧ t'.id = newId ∧ t'.status = Tx.TStatus.opened ∧
      t'.blocks = t.blocks) ∧
    Tx.nextDeadline ⟨Tx.Freq.daily, none⟩ ⟨2025, 12, 2⟩ = ⟨2025, 12, 3⟩ ∧
    Tx.nextDeadline ⟨Tx.Freq.monthly, some (Tx.Anchor.dayOfMonth 31)⟩ ⟨2025, 10, 31⟩ =
      ⟨2025, 11, 30⟩ ∧
    Tx.daysInMonth 2025 11 = 30 := by
  refine ⟨?_, by decide, by decide, by decide⟩
  unfold Tx.nextOccurrence
  rw [hr]
  exact ⟨_, rfl, rfl, rfl, rfl, rfl, rfl, rfl, rfl⟩

/-- Fixture: a daily recurring task with deadline 2025-12-02. -/
def taskDailyC8 : Tx.Task :=
  ⟨"t1", "water plants", 0, Tx.TStatus.opened, [], some ⟨2025, 12, 2⟩,
    some ⟨Tx.Freq.daily, none⟩, none, []⟩

/-- Witness for C8: completing the concrete daily task yields a new task
whose deadline is the computed next deadline, 2025-12-03. -/
theorem claim_C8_witness :
    ∃ t', Tx.nextOccurrence "t2" ⟨2025, 12, 2⟩ taskDailyC8 = some t' ∧
      t'.deadline = some ⟨2025, 12, 3⟩ := by
  obtain ⟨t', h1, h2, -⟩ :=
    (claim_C8_main "t2" ⟨2025, 12, 2⟩ taskDailyC8 ⟨Tx.Freq.daily, none⟩ rfl).1
  exact ⟨t', h1, by rw [h2]; decide⟩

/-! Claim C1: classification performed by the identifier resolver. -/

/-- Fixture: a stored conversation whose identifier is `"abc"`. -/
def recordC1 : Qx.MessageHistory := ⟨"abc", "c", "u", []⟩

/-- Fixture: a history directory holding exactly that conversation. -/
def stateC1 : Qx.FsState := ⟨none, [("abc.json", Qx.FileData.valid recordC1)]⟩

/-- Claim C1 fails on the code: with the identifier set `{"abc"}` and
candidate prefix `"abc."`, `restoreHistory` classifies the prefix as a
single match (success), although `"abc."` is not a prefix of the
canonical identifier string `"abc"` — the implemented prefix test runs
over the stored file name `"abc.json"`, not over the identifier. -/
theorem claim_C1_counterexample :
    (Qx.restoreHistoryOp "t" "abc." stateC1).toOption.map Prod.fst =
      some Qx.RestoreResult.success ∧
    Qx.specResolveById "abc." ["abc"] = Qx.RestoreResult.not_found ∧
    Qx.jsStartsWith "abc" "abc." = false := by
  refine ⟨?_, by decide, by decide⟩
  decide

/-- Claim C1 as amended: the resolver returns exactly one of success /
not_found / ambiguous, deterministically, but the literal case-sensitive
prefix test runs over each identifier's stored file name (the canonical
identifier followed by `".json"`) rather than over the bare identifier:
on any state whose history files all parse, `restoreHistory`'s
classification coincides with the file-name prefix resolver. -/
theorem claim_C1_main (now guid : String) (s : Qx.FsState)
    (hvalid : ∀ e ∈ s.history, e.2 ≠ Qx.FileData.malformed) :
    (Qx.restoreHistoryOp now guid s).toOption.map Prod.fst =
      some (Qx.specResolveByFileName guid (s.history.map Prod.fst)) := by
  unfold Qx.specResolveByFileName
  rw [← qx_matchingEntries_map_fst guid s]
  unfold Qx.restoreHistoryOp
  cases hme : Qx.matchingEntries guid s with
  | nil => rfl
  | cons e₁ tail =>
    cases tail with
    | nil =>
      have he₁ : e₁ ∈ s.history := by
        have hm : e₁ ∈ Qx.matchingEntries guid s := by
          rw [hme]; exact List.mem_singleton.mpr rfl
        exact List.mem_of_mem_filter hm
      cases hc : e₁.2 with
      | malformed => exact absurd hc (hvalid e₁ he₁)
      | valid h =>
        simp [Qx.parseFile, hc]
        exact ⟨_, rfl⟩
    | cons e₂ rest =>
      simp [List.map_map]
      exact ⟨_, rfl⟩

/-- Fixture: a second stored conversation for the C1 witness. -/
def recordC1w : Qx.MessageHistory := ⟨"abd", "c", "u", []⟩

/-- Fixture: a two-file history for the C1 witness. -/
def stateC1w : Qx.FsState :=
  ⟨none, [("abc.json", Qx.FileData.valid recordC1), ("abd.json", Qx.FileData.valid recordC1w)]⟩

/-- Witness for C1 at a concrete all-valid state and prefix. -/
theorem claim_C1_witness :
    (Qx.restoreHistoryOp "t" "ab" stateC1w).toOption.map Prod.fst =
      some (Qx.specResolveByFileName "ab" (stateC1w.history.map Prod.fst)) :=
  claim_C1_main "t" "ab" stateC1w (by decide)

/-! Claim C3: readers treat malformed records as absent. -/

/-- Claim C3: `loadActiveMessage` yields `null` for a missing or
malformed active file (and the parsed record for a well-formed one), and
`listHistory` produces exactly one record per parseable `.json` file —
in particular it contains a record for every well-formed file and skips
every malformed one. -/
theorem claim_C3_main (getTime : String → Int) (s : Qx.FsState) :
    (s.active = none → Qx.loadActiveMessage s = none) ∧
    (s.active = some Qx.FileData.malformed → Qx.loadActiveMessage s = none) ∧
    (∀ h, s.active = some (Qx.FileData.valid h) → Qx.loadActiveMessage s = some h) ∧
    (Qx.listHistory getTime s).length =
      (s.history.filter fun e =>
        Qx.jsEndsWith e.1 ".json" && (Qx.parseFile e.2).isSome).length ∧
    (∀ f h, (f, Qx.FileData.valid h) ∈ s.history → Qx.jsEndsWith f ".json" = true →
      Qx.historyRecordOf h ∈ Qx.listHistory getTime s) := by
  refine ⟨?_, ?_, ?_, ?_, ?_⟩
  · intro ha; unfold Qx.loadActiveMessage; rw [ha]
  · intro ha; unfold Qx.loadActiveMessage; rw [ha]; rfl
  · intro h ha; unfold Qx.loadActiveMessage; rw [ha]; rfl
  · have hperm : (Qx.listHistory getTime s).Perm (Qx.listHistoryRaw s) :=
      List.mergeSort_perm _ _
    rw [hperm.length_eq]
    unfold Qx.listHistoryRaw
    rw [length_filterMap_isSome]
    congr 1
    apply List.filter_congr
    intro e _
    by_cases hj : Qx.jsEndsWith e.1 ".json" <;>
      cases hp : Qx.parseFile e.2 <;> simp [hj, hp]
  · intro f h hmem hj
    have hraw : Qx.historyRecordOf h ∈ Qx.listHistoryRaw s := by
      unfold Qx.listHistoryRaw
      exact List.mem_filterMap.mpr ⟨(f, Qx.FileData.valid h), hmem, by simp [hj, Qx.parseFile]⟩
    exact ((List.mergeSort_perm (Qx.listHistoryRaw s) _).mem_iff).mpr hraw

/-- Fixture: a well-formed archived conversation. -/
def recordC3 : Qx.MessageHistory := ⟨"good", "c", "u", []⟩

/-- Fixture: a state with a malformed active file and a history directory
holding one well-formed and one malformed file. -/
def stateC3 : Qx.FsState :=
  ⟨some Qx.FileData.malformed,
   [("good.json", Qx.FileData.valid recordC3), ("bad.json", Qx.FileData.malformed)]⟩

/-- Witness for C3: on the concrete corrupt state the reader returns
`null` for the active file, and the listing has exactly one record — the
well-formed file's. -/
theorem claim_C3_witness :
    Qx.loadActiveMessage stateC3 = none ∧
    (Qx.listHistory (fun _ => 0) stateC3).length = 1 ∧
    Qx.historyRecordOf recordC3 ∈ Qx.listHistory (fun _ => 0) stateC3 := by
  have t := claim_C3_main (fun _ => 0) stateC3
  refine ⟨t.2.1 rfl, ?_, t.2.2.2.2 "good.json" recordC3 (by decide) (by decide)⟩
  rw [t.2.2.2.1]
  decide

/-! Claim C4: ambiguous and not-found are typed outcomes. -/

/-- Claim C4: for every prefix and state, the no-match and multi-match
classifications of `restoreHistory` are returned as values of the
`RestoreResult` union (`.ok`, never a thrown exception, whatever the
files contain), and the ambiguous outcome carries the full list (of
length at least 2) of matching full identifiers: over a history whose
file names are canonical (`identifier ++ ".json"`), an identifier is in
the carried list exactly when its file is among the matching entries. -/
theorem claim_C4_main (now guid : String) (s : Qx.FsState)
    (hclean : ∀ e ∈ s.history, Qx.stripJson e.1 ++ ".json" = e.1) :
    (Qx.matchingEntries guid s = [] →
      Qx.restoreHistoryOp now guid s = .ok (Qx.RestoreResult.not_found, s)) ∧
    (∀ e₁ e₂ rest, Qx.matchingEntries guid s = e₁ :: e₂ :: rest →
      Qx.restoreHistoryOp now guid s =
        .ok (Qx.RestoreResult.ambiguous
          ((e₁ :: e₂ :: rest).map fun e => Qx.stripJson e.1), s) ∧
      2 ≤ ((e₁ :: e₂ :: rest).map fun e => Qx.stripJson e.1).length ∧
      (∀ id, id ∈ (e₁ :: e₂ :: rest).map (fun e => Qx.stripJson e.1) ↔
        ∃ c, (id ++ ".json", c) ∈ Qx.matchingEntries guid s)) := by
  constructor
  · intro hme
    unfold Qx.restoreHistoryOp
    rw [hme]
  · intro e₁ e₂ rest hme
    refine ⟨?_, ?_, ?_⟩
    · unfold Qx.restoreHistoryOp
      rw [hme]
    · simp
    · intro id
      constructor
      · intro hid
        obtain ⟨e, he, heq⟩ := List.mem_map.mp hid
        have hmatch : e ∈ Qx.matchingEntries guid s := by rw [hme]; exact he
        have hhist : e ∈ s.history := List.mem_of_mem_filter hmatch
        have hfile : id ++ ".json" = e.1 := by rw [← heq]; exact hclean e hhist
        refine ⟨e.2, ?_⟩
        rw [hfile]
        exact hmatch
      · rintro ⟨c, hc⟩
        have hhist : (id ++ ".json", c) ∈ s.history := List.mem_of_mem_filter hc
        have hid' : Qx.stripJson (id ++ ".json") = id :=
          string_append_right_cancel (hclean _ hhist)
        rw [hme] at hc
        exact List.mem_map.mpr ⟨(id ++ ".json", c), hc, hid'⟩

/-- Fixture: two conversations whose identifiers share the prefix "a". -/
def recordC4a : Qx.MessageHistory := ⟨"ab", "c", "u", []⟩

/-- Fixture: the second conversation for the C4 witness. -/
def recordC4b : Qx.MessageHistory := ⟨"ac", "c", "u", []⟩

/-- Fixture: a history directory with both conversations. -/
def stateC4 : Qx.FsState :=
  ⟨none, [("ab.json", Qx.FileData.valid recordC4a), ("ac.json", Qx.FileData.valid recordC4b)]⟩

/-- Witness for C4: prefix "a" against the concrete two-file state yields
a typed ambiguous outcome carrying both full identifiers. -/
theorem claim_C4_witness :
    Qx.restoreHistoryOp "t" "a" stateC4 =
      .ok (Qx.RestoreResult.ambiguous ["ab", "ac"], stateC4) ∧
    ("ab" ∈ ["ab", "ac"] ↔
      ∃ c, (("ab" ++ ".json" : String), c) ∈ Qx.matchingEntries "a" stateC4) := by
  have t := (claim_C4_main "t" "a" stateC4 (by decide)).2
    ("ab.json", Qx.FileData.valid recordC4a) ("ac.json", Qx.FileData.valid recordC4b)
    [] (by decide)
  exact ⟨t.1, t.2.2 "ab"⟩

/-! Claim C5: reachability of an identifier via its own full string. -/

/-- Fixture: a conversation with identifier "a". -/
def recordC5a : Qx.MessageHistory := ⟨"a", "c", "u", []⟩

/-- Fixture: a conversation with identifier "ab", which extends "a". -/
def recordC5b : Qx.MessageHistory := ⟨"ab", "c", "u", []⟩

/-- Fixture: a history directory holding both conversations. -/
def stateC5 : Qx.FsState :=
  ⟨none, [("a.json", Qx.FileData.valid recordC5a), ("ab.json", Qx.FileData.valid recordC5b)]⟩

/-- Claim C5 fails on the code: identifier "a" is stored, yet resolving
with its own full string "a" yields an ambiguous classification — not
the single-match success the claim requires — because the stored
identifier "ab" extends it. -/
theorem claim_C5_counterexample :
    ("a.json", Qx.FileData.valid recordC5a) ∈ stateC5.history ∧
    (Qx.restoreHistoryOp "t" "a" stateC5).toOption.map Prod.fst =
      some (Qx.RestoreResult.ambiguous ["a", "ab"]) := by
  decide

/-- Claim C5 as amended: resolving with a stored identifier's own full
string never classifies as not_found (its own file always matches); it
classifies as success exactly when that file is the only matching entry
(whenever the operation returns success, the matching entries are just
the identifier's own file, and conversely a unique parseable match
yields success), and with two or more matching entries the
classification is ambiguous. -/
theorem claim_C5_main (now id : String) (c : Qx.FileData) (s : Qx.FsState)
    (hmem : (id ++ ".json", c) ∈ s.history) :
    (∀ r s', Qx.restoreHistoryOp now id s = .ok (r, s') →
      r ≠ Qx.RestoreResult.not_found) ∧
    (Qx.matchingEntries id s = [(id ++ ".json", c)] →
      ∀ h, Qx.parseFile c = some h →
      (Qx.restoreHistoryOp now id s).toOption.map Prod.fst =
        some Qx.RestoreResult.success) ∧
    (∀ r s', Qx.restoreHistoryOp now id s = .ok (r, s') →
      r = Qx.RestoreResult.success →
      Qx.matchingEntries id s = [(id ++ ".json", c)]) ∧
    (∀ e₁ e₂ rest, Qx.matchingEntries id s = e₁ :: e₂ :: rest →
      (Qx.restoreHistoryOp now id s).toOption.map Prod.fst =
        some (Qx.RestoreResult.ambiguous
          ((e₁ :: e₂ :: rest).map fun e => Qx.stripJson e.1))) := by
  have hmatch : (id ++ ".json", c) ∈ Qx.matchingEntries id s := by
    unfold Qx.matchingEntries
    refine List.mem_filter.mpr ⟨hmem, ?_⟩
    simp [qx_jsEndsWith_append, qx_jsStartsWith_append]
  refine ⟨?_, ?_, ?_, ?_⟩
  · intro r s' hok hr
    cases hme : Qx.matchingEntries id s with
    | nil =>
      rw [hme] at hmatch
      exact absurd hmatch (List.not_mem_nil _)
    | cons e tail =>
      cases tail with
      | nil =>
        simp only [Qx.restoreHistoryOp, hme] at hok
        cases hp : Qx.parseFile e.2 with
        | none =>
          rw [hp] at hok
          exact Except.noConfusion hok
        | some target =>
          rw [hp] at hok
          have hpair := Except.ok.inj hok
          rw [hr] at hpair
          exact Qx.RestoreResult.noConfusion (congrArg Prod.fst hpair)
      | cons e₂ rest =>
        simp only [Qx.restoreHistoryOp, hme] at hok
        have hpair := Except.ok.inj hok
        rw [hr] at hpair
        exact Qx.RestoreResult.noConfusion (congrArg Prod.fst hpair)
  · intro hme h hp
    simp only [Qx.restoreHistoryOp, hme, hp]
    rfl
  · intro r s' hok hr
    cases hme : Qx.matchingEntries id s with
    | nil =>
      rw [hme] at hmatch
      exact absurd hmatch (List.not_mem_nil _)
    | cons e tail =>
      cases tail with
      | nil =>
        have he : (id ++ ".json", c) = e := by
          rw [hme] at hmatch
          exact List.mem_singleton.mp hmatch
        rw [← he]
      | cons e₂ rest =>
        simp only [Qx.restoreHistoryOp, hme] at hok
        have hpair := Except.ok.inj hok
        rw [hr] at hpair
        exact Qx.RestoreResult.noConfusion (congrArg Prod.fst hpair)
  · intro e₁ e₂ rest hme
    simp only [Qx.restoreHistoryOp, hme]
    rfl

/-- Fixture: a lone stored conversation for the C5 witness. -/
def recordC5w : Qx.MessageHistory := ⟨"ab", "c", "u", []⟩

/-- Fixture: a one-file history for the C5 witness. -/
def stateC5w : Qx.FsState := ⟨none, [("ab.json", Qx.FileData.valid recordC5w)]⟩

/-- Witness for C5: with "ab" stored alone, resolving with "ab" itself
classifies as success. -/
theorem claim_C5_witness :
    (Qx.restoreHistoryOp "t" "ab" stateC5w).toOption.map Prod.fst =
      some Qx.RestoreResult.success :=
  (claim_C5_main "t" "ab" (Qx.FileData.valid recordC5w) stateC5w (by decide)).2.1
    (by decide) recordC5w rfl

/-! Claim C9: a non-empty active conversation is never discarded. -/

/-- Claim C9: when the active file holds a parseable, non-empty
conversation, `clearActiveMessage` writes it into the history directory
before unlinking the active file (the trace is exactly archive-write
then unlink, and the resulting state holds the archived copy with the
active file gone), and a successful `restoreHistory` leaves the archived
copy of that conversation in the resulting history directory before the
active file is overwritten. -/
theorem claim_C9_main (now guid : String) (s : Qx.FsState) (h : Qx.MessageHistory)
    (hactive : s.active = some (Qx.FileData.valid h)) (hne : 0 < h.messages.length) :
    ((Qx.clearActiveMessageFs s).2.active = none ∧
     (Qx.historyFileName h, Qx.serialize h) ∈ (Qx.clearActiveMessageFs s).2.history ∧
     Qx.clearActiveMessageTrace s =
       [Qx.FsOp.write (Qx.historyPathOf (Qx.historyFileName h)) (Qx.serialize h),
        Qx.FsOp.unlink Qx.activeMessagePath]) ∧
    (∀ r s', Qx.restoreHistoryOp now guid s = .ok (r, s') →
      r = Qx.RestoreResult.success →
      (Qx.historyFileName h, Qx.serialize h) ∈ s'.history) := by
  have hload : Qx.loadActiveMessage s = some h := by
    unfold Qx.loadActiveMessage
    rw [hactive]
    rfl
  constructor
  · refine ⟨?_, ?_, ?_⟩
    · simp [Qx.clearActiveMessageFs, hload, hne, hactive]
    · simp [Qx.clearActiveMessageFs, hload, hne, hactive, Qx.archiveToHistoryFs]
      exact qx_mem_historyInsert _ _ _
    · simp [Qx.clearActiveMessageTrace, hload, hne, hactive, Qx.archiveToHistoryTrace]
  · intro r s' hok hr
    cases hme : Qx.matchingEntries guid s with
    | nil =>
      simp only [Qx.restoreHistoryOp, hme] at hok
      have hpair := Except.ok.inj hok
      rw [hr] at hpair
      exact Qx.RestoreResult.noConfusion (congrArg Prod.fst hpair)
    | cons e tail =>
      cases tail with
      | nil =>
        simp only [Qx.restoreHistoryOp, hme] at hok
        cases hp : Qx.parseFile e.2 with
        | none =>
          rw [hp] at hok
          exact Except.noConfusion hok
        | some target =>
          rw [hp] at hok
          have hpair := Except.ok.inj hok
          have hs' : s' = Qx.saveActiveMessageFs now target
              (match Qx.loadActiveMessage s with
               | some cur => if 0 < cur.messages.length then Qx.archiveToHistoryFs cur s else s
               | none => s) := (congrArg Prod.snd hpair).symm
          rw [hs', hload]
          simp only [hne, if_pos]
          exact qx_mem_historyInsert _ _ _
      | cons e₂ rest =>
        simp only [Qx.restoreHistoryOp, hme] at hok
        have hpair := Except.ok.inj hok
        rw [hr] at hpair
        exact Qx.RestoreResult.noConfusion (congrArg Prod.fst hpair)

/-- Fixture: a non-empty active conversation. -/
def recordC9 : Qx.MessageHistory := ⟨"cur", "c", "u", [⟨Qx.Role.human, "hi", "t0"⟩]⟩

/-- Fixture: a state with that active conversation. -/
def stateC9 : Qx.FsState := ⟨some (Qx.FileData.valid recordC9), []⟩

/-- Witness for C9: clearing the concrete non-empty conversation leaves
its archived copy in history and removes the active file. -/
theorem claim_C9_witness :
    (Qx.clearActiveMessageFs stateC9).2.active = none ∧
    (Qx.historyFileName recordC9, Qx.serialize recordC9) ∈
      (Qx.clearActiveMessageFs stateC9).2.history := by
  have t := (claim_C9_main "t" "x" stateC9 recordC9 rfl (by decide)).1
  exact ⟨t.1, t.2.1⟩

/-! Claim C10: ordering and preview contract of the listing. -/

/-- Claim C10: `listHistory` returns its records sorted by updated time
descending (for every interpretation `getTime` of timestamp strings, as
`new Date(x).getTime()` provides), and every returned record comes from
a well-formed `.json` file with its preview equal to the first human
message truncated to at most 60 characters (ellipsis appended exactly
when longer than 60), or the empty-conversation placeholder. -/
theorem claim_C10_main (getTime : String → Int) (s : Qx.FsState) :
    List.Pairwise (fun a b => getTime b.updated ≤ getTime a.updated)
      (Qx.listHistory getTime s) ∧
    (∀ r ∈ Qx.listHistory getTime s, ∃ f h,
      (f, Qx.FileData.valid h) ∈ s.history ∧ Qx.jsEndsWith f ".json" = true ∧
      r = Qx.historyRecordOf h ∧ r.preview = Qx.specPreview h.messages) := by
  constructor
  · have htrans : ∀ a b c : Qx.HistoryRecord,
        Qx.recordLe getTime a b = true → Qx.recordLe getTime b c = true →
        Qx.recordLe getTime a c = true := by
      intro a b c hab hbc
      unfold Qx.recordLe at *
      exact decide_eq_true (le_trans (of_decide_eq_true hbc) (of_decide_eq_true hab))
    have htotal : ∀ a b : Qx.HistoryRecord,
        (Qx.recordLe getTime a b || Qx.recordLe getTime b a) = true := by
      intro a b
      unfold Qx.recordLe
      rcases le_total (getTime b.updated) (getTime a.updated) with hle | hle <;>
        simp [hle]
    have hs := List.sorted_mergeSort htrans htotal (Qx.listHistoryRaw s)
    exact hs.imp fun hab => of_decide_eq_true hab
  · intro r hr
    have hraw : r ∈ Qx.listHistoryRaw s := ((List.mergeSort_perm _ _).mem_iff).mp hr
    obtain ⟨e, he, heq⟩ := List.mem_filterMap.mp hraw
    by_cases hj : Qx.jsEndsWith e.1 ".json"
    · rw [if_pos hj] at heq
      cases hp : Qx.parseFile e.2 with
      | none =>
        rw [hp] at heq
        exact Option.noConfusion heq
      | some h =>
        rw [hp] at heq
        have hr' : Qx.historyRecordOf h = r := Option.some.inj heq
        have hv : e.2 = Qx.FileData.valid h := by
          cases hc : e.2 with
          | valid h' =>
            rw [hc] at hp
            rw [Option.some.inj hp]
          | malformed =>
            rw [hc] at hp
            exact Option.noConfusion hp
        refine ⟨e.1, h, ?_, hj, hr'.symm, ?_⟩
        · rw [← hv]
          exact he
        · rw [← hr']
          exact qx_previewOf_eq_specPreview h.messages
    · rw [if_neg hj] at heq
      exact Option.noConfusion heq

/-- Fixture: a timestamp valuation for the C10 witness. -/
def timeZeroC10 : String → Int := fun _ => 0

/-- Fixture: a history with one well-formed and one malformed file. -/
def stateC10 : Qx.FsState :=
  ⟨none, [("r1.json", Qx.FileData.valid ⟨"r1", "c", "2025-01-01",
      [⟨Qx.Role.human, "hello", "t"⟩]⟩), ("junk.json", Qx.FileData.malformed)]⟩

/-- Witness for C10 at a concrete valuation and state. -/
theorem claim_C10_witness :
    List.Pairwise (fun a b => timeZeroC10 b.updated ≤ timeZeroC10 a.updated)
      (Qx.listHistory timeZeroC10 stateC10) ∧
    (∀ r ∈ Qx.listHistory timeZeroC10 stateC10, ∃ f h,
      (f, Qx.FileData.valid h) ∈ stateC10.history ∧ Qx.jsEndsWith f ".json" = true ∧
      r = Qx.historyRecordOf h ∧ r.preview = Qx.specPreview h.messages) :=
  claim_C10_main timeZeroC10 stateC10
